import Mathlib

/-!
Verification of the core of a terminal Wordle game written in Rust
(`src/main.rs`).  The development shallowly embeds:

* the per-guess color computation of `render_wordle` (two passes over the
  five letter positions, tracking the remaining letters of the answer as a
  mutable list), and
* the `Wordle` game state with its `input`, `erase`, `guess` and `won`
  operations, together with the key-event dispatch of `main` (which filters
  characters through `is_ascii_alphabetic` and stops processing events once
  `won()` returns `Some`).

Guesses and answers are lists of characters (the Rust code collects the
strings into `Vec<char>`; all stored characters are ASCII lowercase, so byte
length and character count coincide).  The dictionary (`GUESSES`, loaded
from a word-list file) is abstracted as an explicit list parameter.
-/

/-- Color assigned to a letter cell, as in the Rust code: `Green` renders a
correct letter, `Yellow` a present letter, `DarkGrey` an absent one. -/
inductive Color where
  | Green : Color
  | Yellow : Color
  | DarkGrey : Color
deriving DecidableEq, Repr

/-- First pass of the color computation (`render_wordle`, first `for` loop):
at index `idx`, if the guess letter equals the answer letter at the same
index, color the cell green and remove the first occurrence of that letter
from the remaining answer letters. -/
def pass1Step (guess answer : List Char) (st : List Color × List Char)
    (idx : Nat) : List Color × List Char :=
  match guess[idx]?, answer[idx]? with
  | some g, some a =>
      if g = a then (st.1.set idx Color.Green, st.2.erase g) else st
  | _, _ => st

/-- Second pass of the color computation (`render_wordle`, second `for`
loop): at index `idx`, skip cells already green; otherwise, if the guess
letter still occurs among the remaining answer letters, color the cell
yellow and remove that occurrence. -/
def pass2Step (guess : List Char) (st : List Color × List Char)
    (idx : Nat) : List Color × List Char :=
  match guess[idx]? with
  | some c =>
      if st.1[idx]? = some Color.Green then st
      else if c ∈ st.2 then (st.1.set idx Color.Yellow, st.2.erase c)
      else st
  | none => st

/-- State after running the first pass over the indices `0..k`, starting
from all-grey colors and the full answer as remaining letters. -/
def pass1Upto (guess answer : List Char) (k : Nat) : List Color × List Char :=
  (List.range k).foldl (pass1Step guess answer)
    (List.replicate 5 Color.DarkGrey, answer)

/-- State after the complete first pass (indices `0..5`). -/
def pass1 (guess answer : List Char) : List Color × List Char :=
  pass1Upto guess answer 5

/-- State after the first pass followed by the second pass over indices
`0..k`. -/
def pass2Upto (guess answer : List Char) (k : Nat) : List Color × List Char :=
  (List.range k).foldl (pass2Step guess) (pass1 guess answer)

/-- The five cell colors `render_wordle` computes for a stored guess
against the answer: first pass (greens), then second pass (yellows). -/
def colorize (guess answer : List Char) : List Color :=
  (pass2Upto guess answer 5).1

/-- The game state of the Rust `Wordle` struct: the secret answer, the
in-progress input buffer, and the list of submitted guesses. -/
structure Wordle where
  answer : List Char
  curr : List Char
  guesses : List (List Char)
deriving DecidableEq, Repr

/-- Rust `Wordle::input`: push the lowercased character onto the current
buffer when the buffer holds fewer than five characters. -/
def Wordle.input (w : Wordle) (c : Char) : Wordle :=
  if w.curr.length < 5 then { w with curr := w.curr ++ [c.toLower] } else w

/-- Rust `Wordle::erase`: pop the last character of the current buffer. -/
def Wordle.erase (w : Wordle) : Wordle :=
  { w with curr := w.curr.dropLast }

/-- Rust `Wordle::guess`: when the buffer holds exactly five characters and
is a dictionary word, append it to the guess list and clear the buffer. -/
def Wordle.guess (w : Wordle) (dict : List (List Char)) : Wordle :=
  if w.curr.length = 5 ∧ w.curr ∈ dict then
    { w with curr := [], guesses := w.guesses ++ [w.curr] }
  else w

/-- Rust `Wordle::won`: `some true` when the last submitted guess equals
the answer, otherwise `some false` when six guesses have been submitted,
otherwise `none` (game still in progress). -/
def Wordle.won (w : Wordle) : Option Bool :=
  if w.guesses.getLast? = some w.answer then some true
  else if w.guesses.length = 6 then some false
  else none

/-- Abstract key events fed to the game, mirroring the `event::read` arms
of `main`. -/
inductive Event where
  | key : Char → Event
  | backspace : Event
  | enter : Event
  | other : Event

/-- Event dispatch of `main`: a character key is forwarded to
`Wordle::input` only when it is ASCII alphabetic, backspace erases, enter
submits, anything else is ignored. -/
def handleEvent (dict : List (List Char)) (w : Wordle) : Event → Wordle
  | Event.key c => if c.isAlpha then w.input c else w
  | Event.backspace => w.erase
  | Event.enter => w.guess dict
  | Event.other => w

/-- Game states visited by the `main` loop: the loop starts from a fresh
state and processes a further event only while `won()` returns `None`
(once it returns `Some`, the loop breaks before reading another event). -/
inductive Reachable (dict : List (List Char)) (ans : List Char) : Wordle → Prop where
  | init : Reachable dict ans ⟨ans, [], []⟩
  | step (w : Wordle) (e : Event) : Reachable dict ans w → w.won = none →
      Reachable dict ans (handleEvent dict w e)

/-- Game states produced by arbitrary sequences of the raw state
operations `input`, `erase`, `guess` from a fresh state, with no gating by
the event loop. -/
inductive RawReach (dict : List (List Char)) (ans : List Char) : Wordle → Prop where
  | init : RawReach dict ans ⟨ans, [], []⟩
  | inp (w : Wordle) (c : Char) : RawReach dict ans w → RawReach dict ans (w.input c)
  | eras (w : Wordle) : RawReach dict ans w → RawReach dict ans w.erase
  | submit (w : Wordle) : RawReach dict ans w → RawReach dict ans (w.guess dict)

/-- Claim C4: `won()` is `some true` exactly when the most recent guess
equals the answer, `some false` exactly when six guesses were made and the
last one is not the answer, and `none` otherwise; in particular a sixth
guess equal to the answer yields `some true`, not `some false`. -/
theorem won_spec (w : Wordle) :
    (w.won = some true ↔ w.guesses.getLast? = some w.answer) ∧
    (w.won = some false ↔
      w.guesses.length = 6 ∧ w.guesses.getLast? ≠ some w.answer) ∧
    (w.won = none ↔
      w.guesses.length ≠ 6 ∧ w.guesses.getLast? ≠ some w.answer) ∧
    (w.guesses.length = 6 → w.guesses.getLast? = some w.answer →
      w.won = some true) := by
  unfold Wordle.won
  by_cases h1 : w.guesses.getLast? = some w.answer <;>
    by_cases h2 : w.guesses.length = 6 <;> simp [h1, h2]

/-- Witness for C4: a concrete six-guess state whose last guess equals the
answer is reported won. -/
theorem won_spec_witness :
    (Wordle.mk ['c','r','a','n','e'] []
      [['a','b','a','c','k'], ['a','b','a','s','e'], ['a','b','a','t','e'],
       ['a','b','b','e','y'], ['a','b','b','o','t'], ['c','r','a','n','e']]).won
      = some true := by
  exact (won_spec _).2.2.2 (by decide) (by decide)

/-- Claim C5: `guess()` appends the buffer to the guess list and clears it
exactly when the buffer has length five and is a dictionary word; in every
other case the whole state is unchanged. -/
theorem guess_spec (dict : List (List Char)) (w : Wordle) :
    (w.curr.length = 5 ∧ w.curr ∈ dict →
      w.guess dict =
        { answer := w.answer, curr := [], guesses := w.guesses ++ [w.curr] }) ∧
    (¬(w.curr.length = 5 ∧ w.curr ∈ dict) → w.guess dict = w) := by
  unfold Wordle.guess
  by_cases h : w.curr.length = 5 ∧ w.curr ∈ dict <;> simp [h]

/-- Witness for C5: submitting the five-letter dictionary word in the
buffer appends it and clears the buffer; a short buffer is left alone. -/
theorem guess_spec_witness :
    (Wordle.mk ['c','r','a','n','e'] ['h','e','l','l','o'] []).guess
        [['h','e','l','l','o']] =
      Wordle.mk ['c','r','a','n','e'] [] [['h','e','l','l','o']] ∧
    (Wordle.mk ['c','r','a','n','e'] ['h','i'] []).guess [['h','e','l','l','o']] =
      Wordle.mk ['c','r','a','n','e'] ['h','i'] [] := by
  constructor
  · exact (guess_spec [['h','e','l','l','o']] _).1 (by decide)
  · exact (guess_spec [['h','e','l','l','o']] _).2 (by decide)

/-- Claim C7: a character key event appends the lowercased character to the
buffer exactly when the buffer holds fewer than five characters and the
character is ASCII alphabetic; in every other case the state is unchanged,
so a non-alphabetic character is never appended. -/
theorem input_spec (dict : List (List Char)) (w : Wordle) (c : Char) :
    (w.curr.length < 5 ∧ c.isAlpha →
      handleEvent dict w (Event.key c) = { w with curr := w.curr ++ [c.toLower] }) ∧
    (¬(w.curr.length < 5 ∧ c.isAlpha) → handleEvent dict w (Event.key c) = w) := by
  unfold handleEvent Wordle.input
  by_cases h1 : c.isAlpha <;> by_cases h2 : w.curr.length < 5 <;> simp [h1, h2]

/-- Witness for C7: an uppercase letter is appended lowercased to a short
buffer, and a digit key leaves the state unchanged. -/
theorem input_spec_witness :
    handleEvent [] (Wordle.mk ['c','r','a','n','e'] ['a','b'] []) (Event.key 'C') =
      Wordle.mk ['c','r','a','n','e'] ['a','b','c'] [] ∧
    handleEvent [] (Wordle.mk ['c','r','a','n','e'] ['a','b'] []) (Event.key '7') =
      Wordle.mk ['c','r','a','n','e'] ['a','b'] [] := by
  constructor
  · exact (input_spec [] _ 'C').1 (by decide)
  · exact (input_spec [] _ '7').2 (by decide)

/-- Claim C10: on a buffer shorter than five characters, `input` followed
by `erase` restores the state exactly, and neither operation touches the
answer or the guess list. -/
theorem input_erase_roundtrip (w : Wordle) (c : Char)
    (h : w.curr.length < 5) :
    (w.input c).erase = w ∧
    (w.input c).answer = w.answer ∧ (w.input c).guesses = w.guesses ∧
    w.erase.answer = w.answer ∧ w.erase.guesses = w.guesses := by
  cases w with
  | mk answer curr guesses =>
      refine ⟨?_, ?_, ?_, ?_, ?_⟩ <;>
        simp [Wordle.input, Wordle.erase, h, List.dropLast_concat]

/-- Witness for C10: typing then erasing a letter on a concrete two-letter
buffer restores the state. -/
theorem input_erase_roundtrip_witness :
    ((Wordle.mk ['c','r','a','n','e'] ['a','b'] []).input 'x').erase =
      Wordle.mk ['c','r','a','n','e'] ['a','b'] [] := by
  exact (input_erase_roundtrip (Wordle.mk ['c','r','a','n','e'] ['a','b'] []) 'x'
    (by decide)).1

/-- The event dispatch appends at most one guess to the history. -/
theorem handleEvent_guesses_length (dict : List (List Char)) (w : Wordle)
    (e : Event) :
    (handleEvent dict w e).guesses.length ≤ w.guesses.length + 1 := by
  cases e with
  | key c =>
      by_cases h : c.isAlpha <;> simp [handleEvent, Wordle.input, h] <;> split <;> simp
  | backspace => simp [handleEvent, Wordle.erase]
  | enter =>
      simp only [handleEvent, Wordle.guess]
      split <;> simp
  | other => simp [handleEvent]

/-- While `won()` is `none`, fewer than six guesses have been made. -/
theorem won_none_length (w : Wordle) (h : w.won = none) :
    w.guesses.length ≠ 6 := by
  exact ((won_spec w).2.2.1.mp h).1

/-- Amended claim C6: in every state the `main` event loop can visit, at
most six guesses have been submitted; the loop stops processing events once
`won()` returns `Some`, which holds as soon as six guesses exist, so no
seventh append is reachable in the program.  The raw `guess` operation
alone carries no length guard, so the bound does not hold for arbitrary
un-gated operation sequences. -/
theorem guesses_length_le_six (dict : List (List Char)) (ans : List Char)
    (w : Wordle) (h : Reachable dict ans w) : w.guesses.length ≤ 6 := by
  induction h with
  | init => simp
  | step w' e _ hnone ih =>
      have hne := won_none_length w' hnone
      have hle := handleEvent_guesses_length dict w' e
      omega

/-- Witness for C6: a concrete reachable state (fresh game, one letter
typed, then submitted and rejected) has at most six guesses. -/
theorem guesses_length_le_six_witness :
    (handleEvent [] (Wordle.mk ['c','r','a','n','e'] [] []) Event.enter).guesses.length ≤ 6 := by
  exact guesses_length_le_six [] ['c','r','a','n','e'] _
    (Reachable.step _ Event.enter Reachable.init (by decide))

/-- Each raw operation keeps the buffer within five characters. -/
theorem curr_length_step (w : Wordle) (c : Char) (dict : List (List Char))
    (h : w.curr.length ≤ 5) :
    (w.input c).curr.length ≤ 5 ∧ w.erase.curr.length ≤ 5 ∧
    (w.guess dict).curr.length ≤ 5 := by
  refine ⟨?_, ?_, ?_⟩
  · unfold Wordle.input
    split <;> simp_all <;> omega
  · unfold Wordle.erase
    simp only []
    have := List.length_dropLast w.curr
    omega
  · unfold Wordle.guess
    split <;> simp_all

/-- Claim C9: under any sequence of raw `input`, `erase` and `guess`
operations from a fresh state, the buffer never exceeds five characters. -/
theorem curr_length_le_five (dict : List (List Char)) (ans : List Char)
    (w : Wordle) (h : RawReach dict ans w) : w.curr.length ≤ 5 := by
  induction h with
  | init => simp
  | inp w' c _ ih => exact (curr_length_step w' c dict ih).1
  | eras w' _ ih => exact (curr_length_step w' 'a' dict ih).2.1
  | submit w' _ ih => exact (curr_length_step w' 'a' dict ih).2.2

/-- Witness for C9: a concrete raw-reachable state (six letters typed in a
row) still has a buffer of at most five characters. -/
theorem curr_length_le_five_witness :
    (((((((Wordle.mk ['c','r','a','n','e'] [] []).input 'a').input 'b').input
      'c').input 'd').input 'e').input 'f').curr.length ≤ 5 := by
  exact curr_length_le_five [] ['c','r','a','n','e'] _
    (RawReach.inp _ 'f' (RawReach.inp _ 'e' (RawReach.inp _ 'd' (RawReach.inp _
      'c' (RawReach.inp _ 'b' (RawReach.inp _ 'a' RawReach.init))))))

/-- Counterexample for C8: evaluating the guess "speed" against the answer
"erase" does not mark S absent — the letter 's' occurs in "erase", so the
second pass colors position 0 yellow (Present), contradicting the spec's
regression fixture `S=Absent`. -/
theorem speed_erase_s_not_absent :
    (colorize ['s','p','e','e','d'] ['e','r','a','s','e'])[0]? ≠
      some Color.DarkGrey := by
  decide

/-- Amended C8: evaluating "speed" against "erase" classifies S as Present,
P as Absent, and the first E as Present. -/
theorem speed_erase_eval :
    (colorize ['s','p','e','e','d'] ['e','r','a','s','e'])[0]? =
        some Color.Yellow ∧
    (colorize ['s','p','e','e','d'] ['e','r','a','s','e'])[1]? =
        some Color.DarkGrey ∧
    (colorize ['s','p','e','e','d'] ['e','r','a','s','e'])[2]? =
        some Color.Yellow := by
  decide

/-- Bool test for an exact match: the guess and the answer hold the same
letter at position `j` (and position `j` exists). -/
def matchB (guess answer : List Char) (j : Nat) : Bool :=
  guess[j]? == answer[j]? && (guess[j]?).isSome

/-- Number of exact-match positions below `k` whose letter is `c`. -/
def mcount (guess answer : List Char) (c : Char) (k : Nat) : Nat :=
  (List.range k).countP (fun j => guess[j]? == some c && answer[j]? == some c)

/-- Number of positions below `k` where the answer holds the letter `c`. -/
def acount (answer : List Char) (c : Char) (k : Nat) : Nat :=
  (List.range k).countP (fun j => answer[j]? == some c)

/-- Bool test for a non-matching occurrence of `c`: the guess holds `c` at
position `j` but the answer letter there differs. -/
def ncoB (guess answer : List Char) (c : Char) (j : Nat) : Bool :=
  guess[j]? == some c && !(guess[j]? == answer[j]?)

/-- Number of non-matching occurrences of `c` in the guess below `k`. -/
def nco (guess answer : List Char) (c : Char) (k : Nat) : Nat :=
  (List.range k).countP (ncoB guess answer c)

/-- Counting over `range (k+1)` splits off the indicator of index `k`. -/
theorem countP_range_succ (p : Nat → Bool) (k : Nat) :
    (List.range (k + 1)).countP p =
      (List.range k).countP p + (if p k then 1 else 0) := by
  rw [List.range_succ, List.countP_append]
  simp [List.countP_cons]

/-- Occurrences of `c` in a list, counted positionally over its indices. -/
theorem count_eq_acount (l : List Char) (c : Char) :
    List.count c l = acount l c l.length := by
  induction l with
  | nil => simp [acount]
  | cons a t ih =>
      rw [List.length_cons, acount, List.range_succ_eq_map, List.countP_cons,
        List.countP_map, List.count_cons]
      simp only [Function.comp_def, List.getElem?_cons_succ,
        List.getElem?_cons_zero]
      rw [← acount, ← ih]
      simp

/-- `acount` is monotone in the index bound. -/
theorem acount_mono (answer : List Char) (c : Char) {k n : Nat} (h : k ≤ n) :
    acount answer c k ≤ acount answer c n := by
  induction n with
  | zero => simpa [Nat.le_zero.mp h]
  | succ n ih =>
      rcases Nat.lt_or_ge k (n + 1) with h' | h'
      · have := ih (Nat.lt_succ_iff.mp h')
        unfold acount
        rw [countP_range_succ]
        unfold acount at this
        omega
      · have : k = n + 1 := Nat.le_antisymm h h'
        simp [this]

/-- At an exact-match position `k` for letter `g`, fewer than
`count g answer` exact matches of `g` lie below `k`: position `k` itself
still holds an occurrence of `g` in the answer. -/
theorem mcount_lt_count (guess answer : List Char) (g : Char) (k : Nat)
    (hgk : guess[k]? = some g) (hak : answer[k]? = some g) :
    mcount guess answer g k < List.count g answer := by
  have hk : k < answer.length := by
    rcases List.getElem?_eq_some_iff.mp hak with ⟨h, _⟩
    exact h
  have h1 : mcount guess answer g k ≤ acount answer g k := by
    unfold mcount acount
    apply List.countP_mono_left
    intro x _ hx
    have := Bool.and_elim_right hx
    simpa using this
  have h2 : acount answer g k + 1 ≤ acount answer g (k + 1) := by
    unfold acount
    rw [countP_range_succ]
    simp [hak]
  have h3 : acount answer g (k + 1) ≤ acount answer g answer.length :=
    acount_mono answer g hk
  rw [count_eq_acount]
  omega

/-- Unfolding the first pass by one index. -/
theorem pass1Upto_succ (guess answer : List Char) (k : Nat) :
    pass1Upto guess answer (k + 1) =
      pass1Step guess answer (pass1Upto guess answer k) k := by
  unfold pass1Upto
  rw [List.range_succ, List.foldl_append]
  rfl

/-- The first pass skips an index past the end of the guess. -/
theorem pass1Step_of_none (guess answer : List Char)
    (st : List Color × List Char) (idx : Nat) (h : guess[idx]? = none) :
    pass1Step guess answer st idx = st := by
  unfold pass1Step
  rw [h]

/-- The first pass skips an index past the end of the answer. -/
theorem pass1Step_of_answer_none (guess answer : List Char)
    (st : List Color × List Char) (idx : Nat) {g : Char}
    (h1 : guess[idx]? = some g) (h2 : answer[idx]? = none) :
    pass1Step guess answer st idx = st := by
  unfold pass1Step
  rw [h1, h2]

/-- The first pass leaves the state alone at a non-matching index. -/
theorem pass1Step_of_ne (guess answer : List Char)
    (st : List Color × List Char) (idx : Nat) {g a : Char}
    (h1 : guess[idx]? = some g) (h2 : answer[idx]? = some a) (h3 : g ≠ a) :
    pass1Step guess answer st idx = st := by
  unfold pass1Step
  rw [h1, h2]
  simp [h3]

/-- The first pass colors a matching index green and erases one occurrence
of the matched letter from the remaining answer letters. -/
theorem pass1Step_of_match (guess answer : List Char)
    (st : List Color × List Char) (idx : Nat) {g : Char}
    (h1 : guess[idx]? = some g) (h2 : answer[idx]? = some g) :
    pass1Step guess answer st idx =
      (st.1.set idx Color.Green, st.2.erase g) := by
  unfold pass1Step
  rw [h1, h2]
  simp

/-- Extending the index bound past a non-matching index does not change
which cells the color description marks green. -/
theorem pass1_cond_ext (guess answer : List Char) (k : Nat)
    (hmk : matchB guess answer k = false) (j : Nat) :
    (if j < 5 then
      (if j < k ∧ matchB guess answer j = true then some Color.Green
       else some Color.DarkGrey) else none) =
    (if j < 5 then
      (if j < k + 1 ∧ matchB guess answer j = true then some Color.Green
       else some Color.DarkGrey) else none) := by
  refine if_congr Iff.rfl (if_congr ?_ rfl rfl) rfl
  constructor
  · rintro ⟨h1, h2⟩
    exact ⟨by omega, h2⟩
  · rintro ⟨h1, h2⟩
    refine ⟨?_, h2⟩
    by_cases hjk : j = k
    · subst hjk
      rw [hmk] at h2
      cases h2
    · omega

/-- Extending the match count past an index that is not an exact match of
the letter `c` does not change it. -/
theorem pass1_cnt_ext (guess answer : List Char) (c : Char) (k : Nat)
    (hmk : (guess[k]? == some c && answer[k]? == some c) = false) :
    mcount guess answer c (k + 1) = mcount guess answer c k := by
  unfold mcount
  rw [countP_range_succ]
  simp [hmk]

/-- Invariant of the first pass over the indices `0..k`: the colors list
keeps length five; a cell is green exactly when it is a processed
exact-match position (all other cells are still dark grey); and for every
letter, the occurrences remaining in the answer copy plus the processed
exact matches of that letter account exactly for the letter's occurrences
in the answer.  The erasure in the matching branch always finds the letter
because fewer exact matches of it lie below the current index than the
answer has occurrences of it. -/
theorem pass1Upto_spec (guess answer : List Char) (ha : answer.length = 5)
    (k : Nat) :
    (pass1Upto guess answer k).1.length = 5 ∧
    (∀ j : Nat, (pass1Upto guess answer k).1[j]? =
      if j < 5 then
        (if j < k ∧ matchB guess answer j = true then some Color.Green
         else some Color.DarkGrey)
      else none) ∧
    (∀ c : Char, List.count c (pass1Upto guess answer k).2
        + mcount guess answer c k = List.count c answer) := by
  induction k with
  | zero =>
      refine ⟨by simp [pass1Upto], ?_, ?_⟩
      · intro j
        have h0 : (pass1Upto guess answer 0).1 =
            List.replicate 5 Color.DarkGrey := rfl
        rw [h0, List.getElem?_replicate]
        simp
      · intro c
        simp [pass1Upto, mcount]
  | succ k ih =>
      obtain ⟨hlen, hget, hcnt⟩ := ih
      rw [pass1Upto_succ]
      cases hg : guess[k]? with
      | none =>
          rw [pass1Step_of_none guess answer _ k hg]
          have hmk : matchB guess answer k = false := by
            simp [matchB, hg]
          refine ⟨hlen, fun j => (hget j).trans (pass1_cond_ext guess answer k hmk j), fun c => ?_⟩
          rw [pass1_cnt_ext guess answer c k (by simp [hg])]
          exact hcnt c
      | some g =>
          cases hak : answer[k]? with
          | none =>
              rw [pass1Step_of_answer_none guess answer _ k hg hak]
              have hmk : matchB guess answer k = false := by
                simp [matchB, hg, hak]
              refine ⟨hlen, fun j => (hget j).trans (pass1_cond_ext guess answer k hmk j), fun c => ?_⟩
              rw [pass1_cnt_ext guess answer c k (by simp [hak])]
              exact hcnt c
          | some a =>
              by_cases hga : g = a
              · subst hga
                rw [pass1Step_of_match guess answer _ k hg hak]
                have hmk : matchB guess answer k = true := by
                  simp [matchB, hg, hak]
                have hk5 : k < 5 := by
                  rcases List.getElem?_eq_some_iff.mp hak with ⟨h, _⟩
                  omega
                refine ⟨?_, ?_, ?_⟩
                · dsimp only
                  rw [List.length_set]
                  exact hlen
                · intro j
                  dsimp only
                  rw [List.getElem?_set]
                  by_cases hkj : k = j
                  · subst hkj
                    rw [if_pos rfl, if_pos (by rw [hlen]; exact hk5),
                      if_pos hk5, if_pos ⟨Nat.lt_succ_self k, hmk⟩]
                  · rw [if_neg hkj, hget j]
                    refine if_congr Iff.rfl (if_congr ?_ rfl rfl) rfl
                    constructor
                    · rintro ⟨h1, h2⟩
                      exact ⟨by omega, h2⟩
                    · rintro ⟨h1, h2⟩
                      exact ⟨by omega, h2⟩
                · intro c
                  dsimp only
                  have hc := hcnt c
                  by_cases hcg : c = g
                  · subst hcg
                    have hlt : mcount guess answer c k < List.count c answer :=
                      mcount_lt_count guess answer c k hg hak
                    have herase :
                        List.count c ((pass1Upto guess answer k).2.erase c) =
                          List.count c (pass1Upto guess answer k).2 - 1 :=
                      List.count_erase_self c _
                    have hstep : mcount guess answer c (k + 1) =
                        mcount guess answer c k + 1 := by
                      unfold mcount
                      rw [countP_range_succ]
                      simp [hg, hak]
                    rw [herase, hstep]
                    omega
                  · have herase :
                        List.count c ((pass1Upto guess answer k).2.erase g) =
                          List.count c (pass1Upto guess answer k).2 :=
                      List.count_erase_of_ne hcg _
                    have hgc : ¬g = c := fun h => hcg h.symm
                    rw [herase, pass1_cnt_ext guess answer c k
                      (by rw [hg]; simp [hgc])]
                    exact hc
              · rw [pass1Step_of_ne guess answer _ k hg hak hga]
                have hmk : matchB guess answer k = false := by
                  simp [matchB, hg, hak, hga]
                refine ⟨hlen, fun j => (hget j).trans (pass1_cond_ext guess answer k hmk j), fun c => ?_⟩
                have hcpred : (guess[k]? == some c && answer[k]? == some c) = false := by
                  rw [hg, hak]
                  by_cases hgc : g = c
                  · subst hgc
                    have hag : ¬a = g := fun h => hga h.symm
                    simp [hag]
                  · simp [hgc]
                rw [pass1_cnt_ext guess answer c k hcpred]
                exact hcnt c

/-- The second pass skips an index past the end of the guess. -/
theorem pass2Step_of_none (guess : List Char) (st : List Color × List Char)
    (idx : Nat) (h : guess[idx]? = none) : pass2Step guess st idx = st := by
  unfold pass2Step
  rw [h]

/-- The second pass skips a cell already colored green. -/
theorem pass2Step_of_green (guess : List Char) (st : List Color × List Char)
    (idx : Nat) {c : Char} (h1 : guess[idx]? = some c)
    (h2 : st.1[idx]? = some Color.Green) : pass2Step guess st idx = st := by
  unfold pass2Step
  rw [h1]
  simp [h2]

/-- On a non-green cell whose letter still remains, the second pass colors
the cell yellow and erases one remaining occurrence of the letter. -/
theorem pass2Step_of_mem (guess : List Char) (st : List Color × List Char)
    (idx : Nat) {c : Char} (h1 : guess[idx]? = some c)
    (h2 : ¬st.1[idx]? = some Color.Green) (h3 : c ∈ st.2) :
    pass2Step guess st idx = (st.1.set idx Color.Yellow, st.2.erase c) := by
  unfold pass2Step
  rw [h1]
  simp [h2, h3]

/-- On a non-green cell whose letter no longer remains, the second pass
leaves the state alone (the cell stays dark grey). -/
theorem pass2Step_of_not_mem (guess : List Char) (st : List Color × List Char)
    (idx : Nat) {c : Char} (h1 : guess[idx]? = some c)
    (h2 : ¬st.1[idx]? = some Color.Green) (h3 : ¬c ∈ st.2) :
    pass2Step guess st idx = st := by
  unfold pass2Step
  rw [h1]
  simp [h2, h3]

/-- The second pass neither creates nor destroys green cells: a cell is
green after folding any list of indices exactly when it was green before. -/
theorem pass2_foldl_green (guess : List Char) (L : List Nat)
    (st : List Color × List Char) (j : Nat) :
    ((L.foldl (pass2Step guess) st).1[j]? = some Color.Green) ↔
      st.1[j]? = some Color.Green := by
  induction L generalizing st with
  | nil => simp
  | cons idx rest ih =>
      rw [List.foldl_cons, ih]
      cases hc : guess[idx]? with
      | none => rw [pass2Step_of_none guess st idx hc]
      | some c =>
          by_cases hgr : st.1[idx]? = some Color.Green
          · rw [pass2Step_of_green guess st idx hc hgr]
          · by_cases hm : c ∈ st.2
            · rw [pass2Step_of_mem guess st idx hc hgr hm]
              dsimp only
              rw [List.getElem?_set]
              by_cases hij : idx = j
              · subst hij
                rw [if_pos rfl]
                constructor
                · intro h
                  by_cases hl : idx < st.1.length
                  · rw [if_pos hl] at h
                    simp at h
                  · rw [if_neg hl] at h
                    simp at h
                · intro h
                  exact absurd h hgr
              · rw [if_neg hij]
            · rw [pass2Step_of_not_mem guess st idx hc hgr hm]

/-- Claim C1: for five-letter guess and answer, a position is colored green
(Correct) exactly when the guess and the answer agree at that position. -/
theorem correct_iff_match (guess answer : List Char) (hg : guess.length = 5)
    (ha : answer.length = 5) (i : Nat) (hi : i < 5) :
    (colorize guess answer)[i]? = some Color.Green ↔
      guess[i]? = answer[i]? := by
  unfold colorize pass2Upto
  rw [pass2_foldl_green]
  have hget := (pass1Upto_spec guess answer ha 5).2.1 i
  have hp : pass1 guess answer = pass1Upto guess answer 5 := rfl
  rw [hp, hget, if_pos hi]
  obtain ⟨gi, hgi⟩ : ∃ g, guess[i]? = some g :=
    ⟨guess.get ⟨i, by omega⟩, List.getElem?_eq_some_iff.mpr ⟨by omega, rfl⟩⟩
  constructor
  · intro h
    by_cases hcond : i < 5 ∧ matchB guess answer i = true
    · have hmb := hcond.2
      unfold matchB at hmb
      exact eq_of_beq (Bool.and_elim_left hmb)
    · rw [if_neg hcond] at h
      simp at h
  · intro h
    rw [if_pos ⟨hi, by unfold matchB; rw [← h, hgi]; simp⟩]

/-- Witness for C1: against the answer "crone", the guess "crane" is green
at position 0 (both hold 'c') and not green at position 2 ('a' vs 'o'). -/
theorem correct_iff_match_witness :
    (colorize ['c','r','a','n','e'] ['c','r','o','n','e'])[0]? =
        some Color.Green ∧
    ¬(colorize ['c','r','a','n','e'] ['c','r','o','n','e'])[2]? =
        some Color.Green := by
  constructor
  · exact (correct_iff_match ['c','r','a','n','e'] ['c','r','o','n','e']
      (by decide) (by decide) 0 (by decide)).mpr (by decide)
  · intro h
    exact absurd ((correct_iff_match ['c','r','a','n','e'] ['c','r','o','n','e']
      (by decide) (by decide) 2 (by decide)).mp h) (by decide)

/-- Number of positions (among the five cells) that carry the letter `c`
in the guess and are colored green or yellow. -/
def creditB (guess : List Char) (cs : List Color) (c : Char) : Nat :=
  (List.range 5).countP (fun j => guess[j]? == some c &&
    (cs[j]? == some Color.Green || cs[j]? == some Color.Yellow))

/-- Counting a predicate that differs from another only at one value is off
by at most the multiplicity of that value in the list. -/
theorem countP_le_of_agree_except (L : List Nat) (p q : Nat → Bool)
    (idx : Nat) (h : ∀ j ∈ L, j ≠ idx → q j = p j) :
    L.countP q ≤ L.countP p + L.count idx := by
  induction L with
  | nil => simp
  | cons a t ih =>
      rw [List.countP_cons, List.countP_cons, List.count_cons]
      have iht := ih (fun j hj hne => h j (List.mem_cons_of_mem a hj) hne)
      by_cases hai : a = idx
      · have hbeq : (a == idx) = true := by simp [hai]
        rw [hbeq, if_pos rfl]
        have hb : (if q a = true then 1 else 0) ≤ 1 := by
          split <;> omega
        omega
      · have hqa : q a = p a := h a (List.mem_cons_self a t) hai
        rw [hqa]
        have hbeq : (a == idx) = false := by simp [hai]
        rw [hbeq, if_neg Bool.false_ne_true]
        omega

/-- Each index occurs at most once in `range 5`. -/
theorem count_range_five_le_one (idx : Nat) :
    (List.range 5).count idx ≤ 1 :=
  List.nodup_iff_count_le_one.mp (List.nodup_range 5) idx

/-- Invariant of the second pass: for any letter, the occurrences of it
remaining in the answer copy plus the green-or-yellow cells carrying it
never grow beyond any bound they satisfied before folding. -/
theorem pass2_foldl_credit (guess : List Char) (c : Char) (L : List Nat)
    (st : List Color × List Char) (N : Nat)
    (h : List.count c st.2 + creditB guess st.1 c ≤ N) :
    List.count c (L.foldl (pass2Step guess) st).2 +
      creditB guess (L.foldl (pass2Step guess) st).1 c ≤ N := by
  induction L generalizing st with
  | nil => exact h
  | cons idx rest ih =>
      rw [List.foldl_cons]
      apply ih
      cases hc : guess[idx]? with
      | none =>
          rw [pass2Step_of_none guess st idx hc]
          exact h
      | some c0 =>
          by_cases hgr : st.1[idx]? = some Color.Green
          · rw [pass2Step_of_green guess st idx hc hgr]
            exact h
          · by_cases hm : c0 ∈ st.2
            · rw [pass2Step_of_mem guess st idx hc hgr hm]
              dsimp only
              by_cases hcc : c = c0
              · subst hcc
                have h1 : List.count c (st.2.erase c) =
                    List.count c st.2 - 1 := List.count_erase_self c st.2
                have h3 : 0 < List.count c st.2 := List.count_pos_iff.mpr hm
                have h2 : creditB guess (st.1.set idx Color.Yellow) c ≤
                    creditB guess st.1 c + 1 := by
                  unfold creditB
                  have hstep := countP_le_of_agree_except (List.range 5)
                    (fun j => guess[j]? == some c &&
                      (st.1[j]? == some Color.Green ||
                       st.1[j]? == some Color.Yellow))
                    (fun j => guess[j]? == some c &&
                      ((st.1.set idx Color.Yellow)[j]? == some Color.Green ||
                       (st.1.set idx Color.Yellow)[j]? == some Color.Yellow))
                    idx ?agree
                  case agree =>
                    intro j _ hne
                    have hset : (st.1.set idx Color.Yellow)[j]? = st.1[j]? := by
                      rw [List.getElem?_set, if_neg (fun hh => hne hh.symm)]
                    simp only [hset]
                  have := count_range_five_le_one idx
                  omega
                omega
              · have h1 : List.count c (st.2.erase c0) =
                    List.count c st.2 := List.count_erase_of_ne hcc st.2
                have h2 : creditB guess (st.1.set idx Color.Yellow) c =
                    creditB guess st.1 c := by
                  unfold creditB
                  apply List.countP_congr
                  intro j _
                  by_cases hji : j = idx
                  · subst hji
                    have hc0c : ¬c0 = c := fun hh => hcc hh.symm
                    simp [hc, hc0c]
                  · have hset : (st.1.set idx Color.Yellow)[j]? = st.1[j]? := by
                      rw [List.getElem?_set, if_neg (fun hh => hji hh.symm)]
                    simp only [hset]
                rw [h1, h2]
                exact h
            · rw [pass2Step_of_not_mem guess st idx hc hgr hm]
              exact h

/-- After the first pass, the green-or-yellow cells carrying a letter are
exactly its exact-match positions (no cell is yellow yet). -/
theorem creditB_pass1 (guess answer : List Char) (ha : answer.length = 5)
    (c : Char) :
    creditB guess (pass1 guess answer).1 c = mcount guess answer c 5 := by
  unfold creditB mcount
  apply List.countP_congr
  intro j hj
  have hj5 : j < 5 := List.mem_range.mp hj
  have hget := (pass1Upto_spec guess answer ha 5).2.1 j
  have hp : pass1 guess answer = pass1Upto guess answer 5 := rfl
  rw [hp, hget, if_pos hj5]
  by_cases hmb : matchB guess answer j = true
  · rw [if_pos ⟨hj5, hmb⟩]
    unfold matchB at hmb
    have hiff := Bool.and_eq_true _ _ |>.mp hmb
    have heq : guess[j]? = answer[j]? := eq_of_beq hiff.1
    simp only [heq]
    constructor
    · intro hx
      have h1 := (Bool.and_eq_true _ _).mp hx |>.1
      simp [h1]
    · intro hx
      have h1 := (Bool.and_eq_true _ _).mp hx |>.1
      simp [h1]
  · rw [if_neg (fun hh => hmb hh.2)]
    constructor
    · intro hx
      have h2 := (Bool.and_eq_true _ _).mp hx |>.2
      simp at h2
    · intro hx
      exfalso
      have h1 := (Bool.and_eq_true _ _).mp hx |>.1
      have h2 := (Bool.and_eq_true _ _).mp hx |>.2
      apply hmb
      unfold matchB
      have hg : guess[j]? = some c := by simpa using h1
      have ha2 : answer[j]? = some c := by simpa using h2
      rw [hg, ha2]
      simp

/-- Claim C2: for five-letter guess and answer, the number of positions
colored green or yellow (Correct or Present) carrying a given letter never
exceeds that letter's occurrence count in the answer. -/
theorem present_correct_le_count (guess answer : List Char)
    (hg : guess.length = 5) (ha : answer.length = 5) (c : Char) :
    creditB guess (colorize guess answer) c ≤ List.count c answer := by
  have hinit : List.count c (pass1 guess answer).2 +
      creditB guess (pass1 guess answer).1 c ≤ List.count c answer := by
    rw [creditB_pass1 guess answer ha c]
    have hcnt := (pass1Upto_spec guess answer ha 5).2.2 c
    have hp : pass1 guess answer = pass1Upto guess answer 5 := rfl
    rw [hp]
    omega
  have hfin := pass2_foldl_credit guess c (List.range 5) (pass1 guess answer)
    (List.count c answer) hinit
  have hcol : colorize guess answer =
      ((List.range 5).foldl (pass2Step guess) (pass1 guess answer)).1 := rfl
  rw [hcol]
  omega

/-- Witness for C2: in "geese" against "melee", the green-or-yellow cells
carrying 'e' stay within the three occurrences of 'e' in "melee". -/
theorem present_correct_le_count_witness :
    creditB ['g','e','e','s','e']
        (colorize ['g','e','e','s','e'] ['m','e','l','e','e']) 'e' ≤
      List.count 'e' ['m','e','l','e','e'] :=
  present_correct_le_count ['g','e','e','s','e'] ['m','e','l','e','e']
    (by decide) (by decide) 'e'

/-- Unfolding the second pass by one index. -/
theorem pass2Upto_succ (guess answer : List Char) (k : Nat) :
    pass2Upto guess answer (k + 1) =
      pass2Step guess (pass2Upto guess answer k) k := by
  unfold pass2Upto
  rw [List.range_succ, List.foldl_append]
  rfl

/-- Invariant of the second pass over the indices `0..k`, for a fixed
letter `c`: the colors list keeps length five; the occurrences of `c`
remaining in the answer copy are the occurrences left over by the first
pass minus the processed non-matching occurrences of `c` (truncated at
zero); cells at unprocessed indices still show their first-pass color; and
every processed non-matching occurrence of `c` is yellow when fewer
earlier such occurrences exist than the first pass left occurrences of
`c`, and dark grey otherwise. -/
theorem pass2Upto_spec (guess answer : List Char) (hg : guess.length = 5)
    (ha : answer.length = 5) (c : Char) (k : Nat) (hk : k ≤ 5) :
    (pass2Upto guess answer k).1.length = 5 ∧
    (List.count c (pass2Upto guess answer k).2 =
      List.count c (pass1 guess answer).2 - nco guess answer c k) ∧
    (∀ j : Nat, k ≤ j →
      (pass2Upto guess answer k).1[j]? = (pass1 guess answer).1[j]?) ∧
    (∀ j : Nat, j < k → ncoB guess answer c j = true →
      (pass2Upto guess answer k).1[j]? =
        (if nco guess answer c j < List.count c (pass1 guess answer).2
         then some Color.Yellow else some Color.DarkGrey)) := by
  induction k with
  | zero =>
      have h0 : pass2Upto guess answer 0 = pass1 guess answer := rfl
      refine ⟨?_, ?_, fun j _ => by rw [h0], fun j hj _ => absurd hj (by omega)⟩
      · rw [h0]
        exact (pass1Upto_spec guess answer ha 5).1
      · rw [h0]
        simp [nco]
  | succ k ih =>
      have hk5 : k < 5 := by omega
      obtain ⟨hlen, hcnt, hsame, hdone⟩ := ih (by omega)
      rw [pass2Upto_succ]
      obtain ⟨g, hgk⟩ : ∃ g, guess[k]? = some g :=
        ⟨guess.get ⟨k, by omega⟩, List.getElem?_eq_some_iff.mpr ⟨by omega, rfl⟩⟩
      have hp : pass1 guess answer = pass1Upto guess answer 5 := rfl
      have hp1get := (pass1Upto_spec guess answer ha 5).2.1 k
      have hstk : (pass2Upto guess answer k).1[k]? =
          (pass1 guess answer).1[k]? := hsame k (le_refl k)
      by_cases hmb : matchB guess answer k = true
      · have hgreen : (pass2Upto guess answer k).1[k]? = some Color.Green := by
          rw [hstk, hp, hp1get, if_pos hk5, if_pos ⟨hk5, hmb⟩]
        rw [pass2Step_of_green guess (pass2Upto guess answer k) k hgk hgreen]
        have hnco : ncoB guess answer c k = false := by
          unfold ncoB
          have h1 := ((Bool.and_eq_true _ _).mp (by unfold matchB at hmb; exact hmb)).1
          rw [h1]
          simp
        have hsucc : nco guess answer c (k + 1) = nco guess answer c k := by
          unfold nco
          rw [countP_range_succ]
          simp [hnco]
        refine ⟨hlen, by rw [hsucc]; exact hcnt, fun j hj => hsame j (by omega), ?_⟩
        intro j hj hncoj
        by_cases hjlt : j < k
        · exact hdone j hjlt hncoj
        · have hjeq : j = k := by omega
          subst hjeq
          rw [hnco] at hncoj
          cases hncoj
      · have hdg : (pass2Upto guess answer k).1[k]? = some Color.DarkGrey := by
          rw [hstk, hp, hp1get, if_pos hk5, if_neg (fun hh => hmb hh.2)]
        have hnotgreen : ¬(pass2Upto guess answer k).1[k]? = some Color.Green := by
          rw [hdg]
          simp
        have hne : (guess[k]? == answer[k]?) = false := by
          cases hb : (guess[k]? == answer[k]?) with
          | false => rfl
          | true =>
              exfalso
              apply hmb
              unfold matchB
              rw [hb, hgk]
              rfl
        by_cases hgc : g = c
        · subst hgc
          have hncok : ncoB guess answer g k = true := by
            unfold ncoB
            rw [hne, hgk]
            simp
          have hsucc : nco guess answer g (k + 1) = nco guess answer g k + 1 := by
            unfold nco
            rw [countP_range_succ]
            simp [hncok]
          by_cases hmem : g ∈ (pass2Upto guess answer k).2
          · have hpos : 0 < List.count g (pass2Upto guess answer k).2 :=
              List.count_pos_iff.mpr hmem
            rw [hcnt] at hpos
            have hlt : nco guess answer g k <
                List.count g (pass1 guess answer).2 := by omega
            rw [pass2Step_of_mem guess (pass2Upto guess answer k) k hgk
              hnotgreen hmem]
            dsimp only
            refine ⟨by rw [List.length_set]; exact hlen, ?_, ?_, ?_⟩
            · rw [List.count_erase_self, hsucc, hcnt]
              omega
            · intro j hj
              rw [List.getElem?_set, if_neg (by omega)]
              exact hsame j (by omega)
            · intro j hj hncoj
              by_cases hjlt : j < k
              · rw [List.getElem?_set, if_neg (by omega)]
                exact hdone j hjlt hncoj
              · have hjeq : j = k := by omega
                subst hjeq
                rw [List.getElem?_set, if_pos rfl,
                  if_pos (by rw [hlen]; omega), if_pos hlt]
          · have hzero : List.count g (pass2Upto guess answer k).2 = 0 := by
              by_contra hnz
              exact hmem (List.count_pos_iff.mp (Nat.pos_of_ne_zero hnz))
            rw [hcnt] at hzero
            rw [pass2Step_of_not_mem guess (pass2Upto guess answer k) k hgk
              hnotgreen hmem]
            refine ⟨hlen, ?_, fun j hj => hsame j (by omega), ?_⟩
            · rw [hsucc, hcnt]
              omega
            · intro j hj hncoj
              by_cases hjlt : j < k
              · exact hdone j hjlt hncoj
              · have hjeq : j = k := by omega
                subst hjeq
                rw [if_neg (by omega)]
                exact hdg
        · have hncok : ncoB guess answer c k = false := by
            unfold ncoB
            rw [hgk]
            have hb : (some g == some c) = false := by simp [hgc]
            rw [hb]
            simp
          have hsucc : nco guess answer c (k + 1) = nco guess answer c k := by
            unfold nco
            rw [countP_range_succ]
            simp [hncok]
          by_cases hmem : g ∈ (pass2Upto guess answer k).2
          · rw [pass2Step_of_mem guess (pass2Upto guess answer k) k hgk
              hnotgreen hmem]
            dsimp only
            refine ⟨by rw [List.length_set]; exact hlen, ?_, ?_, ?_⟩
            · rw [List.count_erase_of_ne (fun hh => hgc hh.symm), hsucc]
              exact hcnt
            · intro j hj
              rw [List.getElem?_set, if_neg (by omega)]
              exact hsame j (by omega)
            · intro j hj hncoj
              by_cases hjlt : j < k
              · rw [List.getElem?_set, if_neg (by omega)]
                exact hdone j hjlt hncoj
              · have hjeq : j = k := by omega
                subst hjeq
                rw [hncok] at hncoj
                cases hncoj
          · rw [pass2Step_of_not_mem guess (pass2Upto guess answer k) k hgk
              hnotgreen hmem]
            refine ⟨hlen, by rw [hsucc]; exact hcnt,
              fun j hj => hsame j (by omega), ?_⟩
            intro j hj hncoj
            by_cases hjlt : j < k
            · exact hdone j hjlt hncoj
            · have hjeq : j = k := by omega
              subst hjeq
              rw [hncok] at hncoj
              cases hncoj

/-- Claim C3: for five-letter guess and answer and a letter `c` that has
more non-matching occurrences in the guess than occurrences remain in the
answer after removing exact matches, the non-matching occurrences of `c`
(positions `i` with `guess[i] = c` but `guess[i] ≠ answer[i]`) are colored
yellow (Present) exactly while fewer earlier such occurrences exist than
the remaining count, in left-to-right order; every later occurrence is
dark grey (Absent). -/
theorem present_order (guess answer : List Char) (hg : guess.length = 5)
    (ha : answer.length = 5) (c : Char)
    (hmore : List.count c answer - mcount guess answer c 5 <
      nco guess answer c 5) :
    ∀ i : Nat, i < 5 → ncoB guess answer c i = true →
      ((nco guess answer c i <
          List.count c answer - mcount guess answer c 5 →
        (colorize guess answer)[i]? = some Color.Yellow) ∧
       (List.count c answer - mcount guess answer c 5 ≤
          nco guess answer c i →
        (colorize guess answer)[i]? = some Color.DarkGrey)) := by
  intro i hi hncoi
  have hspec := (pass2Upto_spec guess answer hg ha c 5 (le_refl 5)).2.2.2
    i hi hncoi
  have hr : List.count c (pass1 guess answer).2 =
      List.count c answer - mcount guess answer c 5 := by
    have hcnt := (pass1Upto_spec guess answer ha 5).2.2 c
    have hp : pass1 guess answer = pass1Upto guess answer 5 := rfl
    rw [hp]
    omega
  rw [hr] at hspec
  have hcol : colorize guess answer = (pass2Upto guess answer 5).1 := rfl
  rw [hcol, hspec]
  constructor
  · intro hlt
    rw [if_pos hlt]
  · intro hge
    rw [if_neg (by omega)]

/-- Witness for C3: in the guess "aaxyz" against the answer "aqqqq", the
letter 'a' matches at position 0, so no occurrence remains for the
non-matching 'a' at position 1, which is colored dark grey. -/
theorem present_order_witness :
    (colorize ['a','a','x','y','z'] ['a','q','q','q','q'])[1]? =
      some Color.DarkGrey := by
  exact (present_order ['a','a','x','y','z'] ['a','q','q','q','q']
    (by decide) (by decide) 'a' (by decide) 1 (by decide) (by decide)).2
    (by decide)

/-- Typing a whole word letter by letter and then submitting it, as a raw
operation sequence on the game state. -/
def submitWord (dict : List (List Char)) (w : Wordle) (word : List Char) :
    Wordle :=
  (word.foldl Wordle.input w).guess dict

/-- Repeating the type-and-submit sequence `n` times. -/
def submitN (dict : List (List Char)) (word : List Char) :
    Nat → Wordle → Wordle
  | 0, w => w
  | n + 1, w => submitN dict word n (submitWord dict w word)

/-- Typing the letters of a word is a raw operation sequence. -/
theorem rawReach_foldl_input (dict : List (List Char)) (ans : List Char)
    (word : List Char) (w : Wordle) (h : RawReach dict ans w) :
    RawReach dict ans (word.foldl Wordle.input w) := by
  induction word generalizing w with
  | nil => exact h
  | cons ch rest ih => exact ih (w.input ch) (RawReach.inp w ch h)

/-- Typing a word and submitting it is a raw operation sequence. -/
theorem rawReach_submitWord (dict : List (List Char)) (ans : List Char)
    (word : List Char) (w : Wordle) (h : RawReach dict ans w) :
    RawReach dict ans (submitWord dict w word) :=
  RawReach.submit _ (rawReach_foldl_input dict ans word w h)

/-- Repeated type-and-submit sequences are raw operation sequences. -/
theorem rawReach_submitN (dict : List (List Char)) (ans : List Char)
    (word : List Char) (n : Nat) (w : Wordle) (h : RawReach dict ans w) :
    RawReach dict ans (submitN dict word n w) := by
  induction n generalizing w with
  | zero => exact h
  | succ n ih => exact ih _ (rawReach_submitWord dict ans word w h)

set_option maxRecDepth 4000 in
/-- Counterexample for C6: the raw `guess` operation has no length guard,
so typing and submitting the dictionary word "aback" seven times from a
fresh state — a plain sequence of input and submit operations, with no
event-loop gating — produces a guess history of length seven, violating
the claimed bound and appending a seventh entry on the last submission. -/
theorem raw_submit_seventh :
    RawReach [['a','b','a','c','k']] ['c','r','a','n','e']
      (submitN [['a','b','a','c','k']] ['a','b','a','c','k'] 7
        (Wordle.mk ['c','r','a','n','e'] [] [])) ∧
    ¬(submitN [['a','b','a','c','k']] ['a','b','a','c','k'] 7
        (Wordle.mk ['c','r','a','n','e'] [] [])).guesses.length ≤ 6 :=
  ⟨rawReach_submitN [['a','b','a','c','k']] ['c','r','a','n','e']
    ['a','b','a','c','k'] 7 (Wordle.mk ['c','r','a','n','e'] [] [])
    RawReach.init, by decide⟩
